import Mathlib

set_option maxHeartbeats 1000000

namespace HyperAnf

/-!
Shallow embedding of the hyper-anf repository.

The file models the two source files:
* hyperloglog.rs: the sketch with its register array (a Vec of u8,
  modelled as List Nat; every value the code ever stores in a register is
  at most 65, so Nat arithmetic coincides with u8 arithmetic), the
  operations add, union, set_registers, eq, count and the helpers.
* main.rs: the adjacency index built by Graph::new, the counter tables
  built by init_counters, and the propagation loop in main.

A 64-bit hash value is a Nat below 2 to the 64; shifts and masks are
modelled with the Nat bitwise operators exactly as the u64 operators act.
-/

/-- Embeds HyperLogLog::new for precision p: m equals 2 to the p registers,
all set to 0. -/
def newRegisters (p : Nat) : List Nat := List.replicate (2 ^ p) 0

/-- Embeds HyperLogLog::first_set_bit: the u64 leading zero count of the
argument plus one. Nat.size is the bit length, so the 64-bit leading zero
count of a value below 2 to the 64 is 64 minus its size. -/
def first_set_bit (value : Nat) : Nat := (64 - Nat.size value) + 1

/-- Embeds HyperLogLog::add applied to the 64-bit hash of the inserted
element: the index is the hash masked with m minus one, the candidate rank
is first_set_bit of the hash shifted right by p, and the register at the
index is raised to the candidate when it is smaller. -/
def hllAdd (p : Nat) (regs : List Nat) (hash : Nat) : List Nat :=
  let m : Nat := 2 ^ p
  let index : Nat := hash &&& (m - 1)
  let first_bit : Nat := first_set_bit (hash >>> p)
  if regs.getD index 0 < first_bit then regs.set index first_bit else regs

/-- Embeds HyperLogLog::union: the mutable iterator over the registers of
self is zipped with the registers of other and each common position becomes
the pointwise maximum; positions of self beyond the length of other are
left unchanged, and positions of other beyond the length of self are
ignored. -/
def hllUnion (a b : List Nat) : List Nat :=
  List.zipWith max a b ++ a.drop b.length

/-- Embeds HyperLogLog::set_registers: each common position of self is
overwritten with the register of other, positions of self beyond the
length of other are left unchanged. -/
def set_registers (a b : List Nat) : List Nat :=
  b.take a.length ++ a.drop b.length

/-- Embeds the PartialEq instance of HyperLogLog: the zipped register
sequences agree at every common position. -/
def hllEq (a b : List Nat) : Bool :=
  (a.zip b).all fun z => z.1 == z.2

/-- Embeds HyperLogLog::zero_count. -/
def zero_count (regs : List Nat) : Nat :=
  (regs.filter fun r => r == 0).length

/-- Embeds HyperLogLog::compute_alpha, with f64 modelled as the reals. -/
noncomputable def compute_alpha (p : Nat) : ℝ :=
  if p = 4 then 0.673
  else if p = 5 then 0.987
  else if p = 6 then 0.709
  else 0.7213 / (1 + 1.079 / ((2 ^ p : Nat) : ℝ))

/-- Embeds HyperLogLog::estimate, with f64 modelled as the reals: the sum
over register indices 0 to m of 2 to the negated register, divided into
alpha times m squared. -/
noncomputable def hllEstimate (p : Nat) (regs : List Nat) : ℝ :=
  (compute_alpha p * ((2 ^ p * 2 ^ p : Nat) : ℝ)) /
    (Finset.range (2 ^ p)).sum fun i => (2 : ℝ) ^ (-(regs.getD i 0 : ℤ))

/-- Embeds HyperLogLog::count, with f64 modelled as the reals: the raw
estimate with the three-branch range correction of the source. -/
noncomputable def hllCount (p : Nat) (regs : List Nat) : ℝ :=
  let estimate := hllEstimate p regs
  let m : ℝ := ((2 ^ p : Nat) : ℝ)
  let two_32 : ℝ := ((2 ^ 32 : Nat) : ℝ)
  if estimate ≤ 5 / 2 * m then
    if zero_count regs ≠ 0 then m * Real.log (m / (zero_count regs : ℝ))
    else estimate
  else if estimate ≤ 1 / 30 * two_32 then estimate
  else -two_32 * Real.log (1 - estimate / two_32)

/-- Follows the words of the specification and of claim C5 for the
corrected count: Z is the sum of 2 to the negated register over the
register list, E is alpha times m squared over Z, and the same three
branches are applied in order. Kept separate from hllCount, which is
translated from the source, so the two can be compared. -/
noncomputable def specCount (p : Nat) (regs : List Nat) : ℝ :=
  let Z : ℝ := (regs.map fun r : Nat => (2 : ℝ) ^ (-(r : ℤ))).sum
  let E : ℝ := compute_alpha p * ((2 ^ p : Nat) : ℝ) ^ 2 / Z
  let m : ℝ := ((2 ^ p : Nat) : ℝ)
  let zeros : Nat := regs.count 0
  if E ≤ 2.5 * m then
    if 0 < zeros then m * Real.log (m / (zeros : ℝ)) else E
  else if E ≤ 1 / 30 * 2 ^ 32 then E
  else -(2 ^ 32) * Real.log (1 - E / 2 ^ 32)

/-- Embeds the body of the fn add of main.rs, the entry update of the
adjacency map: a vacant key is inserted with the one-element list, an
occupied key has the destination pushed onto its list. The HashMap is
modelled as an association list. -/
def addNeighbor {V : Type} [DecidableEq V] :
    List (V × List V) → V → V → List (V × List V)
  | [], src, dst => [(src, [dst])]
  | (k, vs) :: rest, src, dst =>
    if k = src then (k, vs ++ [dst]) :: rest
    else (k, vs) :: addNeighbor rest src dst

/-- Embeds Graph::new of main.rs: every edge is inserted in both
directions. -/
def graphNew {V : Type} [DecidableEq V] (edges : List (V × V)) :
    List (V × List V) :=
  edges.foldl (fun acc e => addNeighbor (addNeighbor acc e.1 e.2) e.2 e.1) []

/-- The key list of an association list, embedding HashMap keys and
Graph::get_nodes. -/
def keys {V : Type} (g : List (V × List V)) : List V := g.map Prod.fst

/-- Embeds HashMap::get on the association-list model. -/
def lookupTable {V : Type} [DecidableEq V] {β : Type} :
    List (V × β) → V → Option β
  | [], _ => none
  | (k, v) :: rest, n => if k = n then some v else lookupTable rest n

/-- Embeds init_counters of main.rs: each node receives a fresh sketch
seeded with one add of the node itself, hashFn standing for the 64-bit
DefaultHasher of the run. -/
def initCounters {V : Type} (hashFn : V → Nat) (b : Nat) (nodes : List V) :
    List (V × List Nat) :=
  nodes.map fun n => (n, hllAdd b (newRegisters b) (hashFn n))

/-- Embeds building a sketch by a sequence of adds, as the tests of
hyperloglog.rs and init_counters do: fold hllAdd over the element list
starting from the fresh register array. -/
def buildSketch {α : Type} (hashFn : α → Nat) (p : Nat) (xs : List α) :
    List Nat :=
  xs.foldl (fun r x => hllAdd p r (hashFn x)) (newRegisters p)

/-- Embeds the round body of the loop in main: for a node n the counter of
the current table is unioned, in neighbour-list order, with the previous
counter of every neighbour. The tables are total functions because claim
C8 shows every lookup of the loop succeeds. -/
def roundStep {V : Type} (nbr : V → List V) (prev cur : V → List Nat) :
    V → List Nat :=
  fun n => (nbr n).foldl (fun acc m => hllUnion acc (prev m)) (cur n)

/-- Embeds the u8 round counter update t += 1 of main (release overflow
semantics: arithmetic modulo 2 to the 8). -/
def bump (t : Nat) : Nat := (t + 1) % 256

/-- Embeds the propagation loop of main with explicit fuel. At the top of
every iteration the current table is register-identical to the previous
table (initially current is a clone of previous, and set_values copies
current into previous before the next iteration), so the loop state is the
one table and the round body starts from it. The loop computes the round,
breaks with the round counter and the final table when every counter is
unchanged, and otherwise advances and bumps the counter. -/
def runLoop {V : Type} [Fintype V] [DecidableEq V] (nbr : V → List V) :
    Nat → (V → List Nat) → Nat → Option (Nat × (V → List Nat))
  | 0, _, _ => none
  | fuel + 1, prev, t =>
    let cur := roundStep nbr prev prev
    if (∀ n, hllEq (cur n) (prev n) = true) then some (t, cur)
    else runLoop nbr fuel cur (bump t)

/-- The ball of radius k around a node: the nodes reachable from it by at
most k hops of the neighbour function. Used to state the diameter bound of
claim C3. -/
def ball {V : Type} [DecidableEq V] (nbr : V → List V) :
    Nat → V → Finset V
  | 0, a => {a}
  | k + 1, a => (nbr a).foldl (fun s c => s ∪ ball nbr k c) (ball nbr k a)

/-- The table after k rounds of the round body started from the seed
table. -/
def iterRound {V : Type} (nbr : V → List V) (seed : V → List Nat) :
    Nat → V → List Nat
  | 0 => seed
  | k + 1 => roundStep nbr (iterRound nbr seed k) (iterRound nbr seed k)

/-- A two-node path graph used by concrete witnesses: node 0 and node 1
are neighbours of each other. -/
def wNbr : Fin 2 → List (Fin 2) := fun n => if n = 0 then [1] else [0]

/-- A concrete two-node counter table used by concrete witnesses. -/
def wPrev : Fin 2 → List Nat := fun n => if n = 0 then [2, 0] else [0, 3]

/-! ## Basic lemmas about the register operations -/

theorem hllUnion_nil_left (b : List Nat) : hllUnion [] b = [] := by
  simp [hllUnion]

theorem hllUnion_nil_right (a : List Nat) : hllUnion a [] = a := by
  simp [hllUnion]

theorem hllUnion_cons (x y : Nat) (xs ys : List Nat) :
    hllUnion (x :: xs) (y :: ys) = max x y :: hllUnion xs ys := by
  simp [hllUnion]

theorem hllUnion_length (a b : List Nat) :
    (hllUnion a b).length = a.length := by
  simp [hllUnion]
  omega

theorem hllEq_nil_left (b : List Nat) : hllEq [] b = true := by
  simp [hllEq]

theorem hllEq_nil_right (a : List Nat) : hllEq a [] = true := by
  simp [hllEq]

theorem hllEq_cons (x y : Nat) (xs ys : List Nat) :
    hllEq (x :: xs) (y :: ys) = ((x == y) && hllEq xs ys) := by
  simp [hllEq]

theorem hllEq_self (a : List Nat) : hllEq a a = true := by
  induction a with
  | nil => exact hllEq_nil_left []
  | cons x xs ih => rw [hllEq_cons, ih]; simp

theorem hllEq_iff_eq (a b : List Nat) (h : a.length = b.length) :
    hllEq a b = true ↔ a = b := by
  induction a generalizing b with
  | nil =>
    cases b with
    | nil => simp [hllEq_nil_left]
    | cons y ys => simp at h
  | cons x xs ih =>
    cases b with
    | nil => simp at h
    | cons y ys =>
      rw [hllEq_cons]
      simp only [List.length_cons, Nat.add_right_cancel_iff] at h
      simp [ih ys h]
theorem hllUnion_getD (a b : List Nat) (i : Nat) (hi : i < a.length) :
    (hllUnion a b).getD i 0 =
      if i < b.length then max (a.getD i 0) (b.getD i 0) else a.getD i 0 := by
  induction a generalizing b i with
  | nil => simp at hi
  | cons x xs ih =>
    cases b with
    | nil => simp [hllUnion_nil_right]
    | cons y ys =>
      cases i with
      | zero => simp [hllUnion_cons]
      | succ j =>
        simp only [List.length_cons, Nat.add_lt_add_iff_right] at hi
        simp only [hllUnion_cons, List.getD_cons_succ, List.length_cons,
          Nat.add_lt_add_iff_right]
        exact ih ys j hi

theorem hllUnion_getD_eq (a b : List Nat) (h : a.length = b.length)
    (i : Nat) :
    (hllUnion a b).getD i 0 = max (a.getD i 0) (b.getD i 0) := by
  by_cases hi : i < a.length
  · rw [hllUnion_getD a b i hi, if_pos (h ▸ hi)]
  · have h1 : (hllUnion a b).getD i 0 = 0 :=
      List.getD_eq_default _ _ (by rw [hllUnion_length]; omega)
    have h2 : a.getD i 0 = 0 := List.getD_eq_default _ _ (by omega)
    have h3 : b.getD i 0 = 0 := List.getD_eq_default _ _ (by omega)
    rw [h1, h2, h3]; simp

theorem le_hllUnion_getD (a b : List Nat) (i : Nat) :
    a.getD i 0 ≤ (hllUnion a b).getD i 0 := by
  by_cases hi : i < a.length
  · rw [hllUnion_getD a b i hi]
    by_cases hb : i < b.length
    · rw [if_pos hb]; exact Nat.le_max_left _ _
    · rw [if_neg hb]
  · rw [List.getD_eq_default _ _ (by omega : a.length ≤ i)]
    exact Nat.zero_le _

theorem hllUnion_mem_le (a b : List Nat) (ha : ∀ r ∈ a, r ≤ 65)
    (hb : ∀ r ∈ b, r ≤ 65) : ∀ r ∈ hllUnion a b, r ≤ 65 := by
  induction a generalizing b with
  | nil => simp [hllUnion_nil_left]
  | cons x xs ih =>
    cases b with
    | nil =>
      rw [hllUnion_nil_right]; exact ha
    | cons y ys =>
      rw [hllUnion_cons]
      intro r hr
      rcases List.mem_cons.mp hr with h | h
      · subst h
        exact Nat.max_le.mpr ⟨ha x (by simp), hb y (by simp)⟩
      · exact ih ys (fun r hr => ha r (by simp [hr]))
          (fun r hr => hb r (by simp [hr])) r h

theorem set_registers_eq_of_length (a b : List Nat)
    (h : a.length = b.length) : set_registers a b = b := by
  unfold set_registers
  rw [h, List.take_length, List.drop_eq_nil_of_le (by omega), List.append_nil]

theorem first_set_bit_le (v : Nat) : first_set_bit v ≤ 65 := by
  unfold first_set_bit; omega

theorem first_set_bit_ge (p hash : Nat) (hp : p ≤ 63)
    (hh : hash < 2 ^ 64) : p + 1 ≤ first_set_bit (hash / 2 ^ p) := by
  have h1 : hash / 2 ^ p < 2 ^ (64 - p) := by
    apply Nat.div_lt_of_lt_mul
    calc hash < 2 ^ 64 := hh
    _ = 2 ^ p * 2 ^ (64 - p) := by rw [← pow_add]; congr 1; omega
  have h2 : Nat.size (hash / 2 ^ p) ≤ 64 - p := Nat.size_le.mpr h1
  unfold first_set_bit; omega

theorem getD_set_self (l : List Nat) (i v : Nat) (hi : i < l.length) :
    (l.set i v).getD i 0 = v := by
  induction l generalizing i with
  | nil => simp at hi
  | cons x xs ih =>
    cases i with
    | zero => simp
    | succ j =>
      simp only [List.length_cons, Nat.add_lt_add_iff_right] at hi
      simpa using ih j hi

theorem getD_set_other (l : List Nat) (i j v : Nat) (hij : i ≠ j) :
    (l.set i v).getD j 0 = l.getD j 0 := by
  induction l generalizing i j with
  | nil => simp
  | cons x xs ih =>
    cases i with
    | zero =>
      cases j with
      | zero => exact absurd rfl hij
      | succ j2 => simp
    | succ i2 =>
      cases j with
      | zero => simp
      | succ j2 => simpa using ih i2 j2 (by omega)

theorem set_getD_self_eq (l : List Nat) (i : Nat) (hi : i < l.length) :
    l.set i (l.getD i 0) = l := by
  induction l generalizing i with
  | nil => simp
  | cons x xs ih =>
    cases i with
    | zero => simp
    | succ j =>
      simp only [List.length_cons, Nat.add_lt_add_iff_right] at hi
      simpa using ih j hi

theorem hllAdd_eq_set (p : Nat) (regs : List Nat) (hash : Nat)
    (hm : regs.length = 2 ^ p) :
    hllAdd p regs hash =
      regs.set (hash % 2 ^ p)
        (max (regs.getD (hash % 2 ^ p) 0) (first_set_bit (hash / 2 ^ p))) := by
  unfold hllAdd
  simp only [Nat.and_pow_two_sub_one_eq_mod, Nat.shiftRight_eq_div_pow]
  by_cases h : regs.getD (hash % 2 ^ p) 0 < first_set_bit (hash / 2 ^ p)
  · rw [if_pos h, Nat.max_eq_right (Nat.le_of_lt h)]
  · rw [if_neg h, Nat.max_eq_left (Nat.le_of_not_lt h),
      set_getD_self_eq regs _ (by rw [hm]; exact Nat.mod_lt _ (Nat.pos_pow_of_pos p (by omega)))]

theorem le_hllAdd_getD (p : Nat) (regs : List Nat) (hash i : Nat) :
    regs.getD i 0 ≤ (hllAdd p regs hash).getD i 0 := by
  unfold hllAdd
  by_cases h : regs.getD (hash &&& (2 ^ p - 1)) 0 <
      first_set_bit (hash >>> p)
  · rw [if_pos h]
    by_cases hij : hash &&& (2 ^ p - 1) = i
    · subst hij
      by_cases hlt : hash &&& (2 ^ p - 1) < regs.length
      · rw [getD_set_self regs _ _ hlt]; exact Nat.le_of_lt h
      · rw [List.set_eq_of_length_le (by omega)]
    · rw [getD_set_other regs _ _ _ hij]
  · rw [if_neg h]

theorem hllAdd_mem_le (p : Nat) (regs : List Nat) (hash : Nat)
    (h : ∀ r ∈ regs, r ≤ 65) : ∀ r ∈ hllAdd p regs hash, r ≤ 65 := by
  unfold hllAdd
  by_cases hc : regs.getD (hash &&& (2 ^ p - 1)) 0 <
      first_set_bit (hash >>> p)
  · rw [if_pos hc]
    intro r hr
    rcases List.mem_or_eq_of_mem_set hr with h2 | h2
    · exact h r h2
    · subst h2; exact first_set_bit_le _
  · rw [if_neg hc]; exact h

/-- C1 (counterexample): the claim asserts the rank lies in [1, 65 - p].
At precision 2 and hash 0 the code stores rank 65 into register 0, and
65 exceeds 65 - 2: the leading zero count is taken over the full 64-bit
word of the shifted hash, not over the high-bit width. -/
theorem add_rank_range_counterexample :
    (hllAdd 2 [0, 0, 0, 0] 0).getD 0 0 = 65 ∧ ¬(65 ≤ 65 - 2) := by
  constructor
  · rw [hllAdd_eq_set 2 [0, 0, 0, 0] 0 (by decide)]
    norm_num [first_set_bit, Nat.size_zero]
  · decide

/-- C1 (amended): add computes index = hash AND (m - 1), the low p bits,
updates the register at the index to the maximum of its old value and the
rank, where the rank is the 64-bit leading zero count of hash shifted
right by p, plus one; the rank lies in [p + 1, 65], not in [1, 65 - p]. -/
theorem add_index_rank (p : Nat) (regs : List Nat) (hash : Nat)
    (hp : p ≤ 63) (hh : hash < 2 ^ 64) (hm : regs.length = 2 ^ p) :
    hash % 2 ^ p < 2 ^ p ∧
    hllAdd p regs hash =
      regs.set (hash % 2 ^ p)
        (max (regs.getD (hash % 2 ^ p) 0) (first_set_bit (hash / 2 ^ p))) ∧
    p + 1 ≤ first_set_bit (hash / 2 ^ p) ∧
    first_set_bit (hash / 2 ^ p) ≤ 65 :=
  ⟨Nat.mod_lt _ (Nat.pos_pow_of_pos p (by omega)),
   hllAdd_eq_set p regs hash hm,
   first_set_bit_ge p hash hp hh,
   first_set_bit_le _⟩

/-- Witness for C1 (amended) at precision 2, hash 0, fresh registers. -/
theorem add_index_rank_witness :
    (2 ≤ 63 ∧ 0 < 2 ^ 64 ∧ ([0, 0, 0, 0] : List Nat).length = 2 ^ 2) ∧
    (0 % 2 ^ 2 < 2 ^ 2 ∧
     hllAdd 2 [0, 0, 0, 0] 0 =
       ([0, 0, 0, 0] : List Nat).set (0 % 2 ^ 2)
         (max (([0, 0, 0, 0] : List Nat).getD (0 % 2 ^ 2) 0)
           (first_set_bit (0 / 2 ^ 2))) ∧
     2 + 1 ≤ first_set_bit (0 / 2 ^ 2) ∧ first_set_bit (0 / 2 ^ 2) ≤ 65) :=
  ⟨⟨by decide, by decide, by decide⟩,
   add_index_rank 2 [0, 0, 0, 0] 0 (by decide) (by decide) (by decide)⟩

/-- C4: every register value lies in [0, 65] (the lower bound is the Nat
type), and add and union never decrease any register. -/
theorem registers_bounded_and_monotone (p : Nat) (regs a b : List Nat)
    (hash : Nat) (hregs : ∀ r ∈ regs, r ≤ 65) (ha : ∀ r ∈ a, r ≤ 65)
    (hb : ∀ r ∈ b, r ≤ 65) :
    (∀ r ∈ hllAdd p regs hash, r ≤ 65) ∧
    (∀ r ∈ hllUnion a b, r ≤ 65) ∧
    (∀ i, regs.getD i 0 ≤ (hllAdd p regs hash).getD i 0) ∧
    (∀ i, a.getD i 0 ≤ (hllUnion a b).getD i 0) :=
  ⟨hllAdd_mem_le p regs hash hregs, hllUnion_mem_le a b ha hb,
   le_hllAdd_getD p regs hash, le_hllUnion_getD a b⟩

/-- Witness for C4 at precision 2, hash 5, concrete register arrays. -/
theorem registers_bounded_and_monotone_witness :
    ((∀ r ∈ ([0, 3, 0, 0] : List Nat), r ≤ 65) ∧
     (∀ r ∈ ([1, 2] : List Nat), r ≤ 65) ∧
     (∀ r ∈ ([5] : List Nat), r ≤ 65)) ∧
    ((∀ r ∈ hllAdd 2 [0, 3, 0, 0] 5, r ≤ 65) ∧
     (∀ r ∈ hllUnion [1, 2] [5], r ≤ 65) ∧
     (∀ i, ([0, 3, 0, 0] : List Nat).getD i 0 ≤
        (hllAdd 2 [0, 3, 0, 0] 5).getD i 0) ∧
     (∀ i, ([1, 2] : List Nat).getD i 0 ≤ (hllUnion [1, 2] [5]).getD i 0)) :=
  ⟨⟨by decide, by decide, by decide⟩,
   registers_bounded_and_monotone 2 [0, 3, 0, 0] [1, 2] [5] 5
     (by decide) (by decide) (by decide)⟩

/-- C6 (counterexample): the claim asserts union on sketches of different
precision fails fast. The operation instead completes silently: unioning
a four-register sketch with a two-register sketch returns a four-register
result that merged only the common prefix, and the symmetric call drops
the extra registers of the other sketch. -/
theorem union_mismatch_counterexample :
    hllUnion [0, 0, 0, 0] [7, 7] = [7, 7, 0, 0] ∧
    hllUnion [7, 7] [0, 0, 0, 0] = [7, 7] := by
  constructor <;> rfl

/-- C6 (amended): union on register arrays of unequal length completes
without any error: the result keeps the length of self, each position
below the length of other becomes the pointwise maximum, and each
remaining position of self is unchanged; the surplus registers of other
are silently ignored. -/
theorem union_mismatch_silent (a b : List Nat) :
    (hllUnion a b).length = a.length ∧
    ∀ i, i < a.length →
      (hllUnion a b).getD i 0 =
        if i < b.length then max (a.getD i 0) (b.getD i 0)
        else a.getD i 0 :=
  ⟨hllUnion_length a b, fun i hi => hllUnion_getD a b i hi⟩

/-- Witness for C6 (amended) on a four-register and a two-register
array. -/
theorem union_mismatch_silent_witness :
    ((0 : Nat) < ([0, 9, 0, 0] : List Nat).length) ∧
    (hllUnion [0, 9, 0, 0] [7, 7]).length = ([0, 9, 0, 0] : List Nat).length ∧
    (hllUnion [0, 9, 0, 0] [7, 7]).getD 0 0 =
      if 0 < ([7, 7] : List Nat).length
      then max (([0, 9, 0, 0] : List Nat).getD 0 0)
        (([7, 7] : List Nat).getD 0 0)
      else ([0, 9, 0, 0] : List Nat).getD 0 0 :=
  ⟨by decide, (union_mismatch_silent [0, 9, 0, 0] [7, 7]).1,
   (union_mismatch_silent [0, 9, 0, 0] [7, 7]).2 0 (by decide)⟩

/-- C7: unioning a sketch with a register-identical sketch leaves it
unchanged, and set_registers from a source of equal precision followed by
the equality comparison against the source returns true. -/
theorem union_idem_copy_eq :
    (∀ a b : List Nat, a = b → hllUnion a b = a) ∧
    (∀ a b : List Nat, a.length = b.length →
      hllEq (set_registers a b) b = true) := by
  constructor
  · intro a b h
    subst h
    induction a with
    | nil => exact hllUnion_nil_left []
    | cons x xs ih => rw [hllUnion_cons, Nat.max_self, ih]
  · intro a b h
    rw [set_registers_eq_of_length a b h]
    exact hllEq_self b

/-- Witness for C7 on concrete equal-precision register arrays. -/
theorem union_idem_copy_eq_witness :
    (([5, 3] : List Nat) = [5, 3] ∧
     ([1, 2] : List Nat).length = ([3, 4] : List Nat).length) ∧
    hllUnion [5, 3] [5, 3] = [5, 3] ∧
    hllEq (set_registers [1, 2] [3, 4]) [3, 4] = true :=
  ⟨⟨rfl, by decide⟩, union_idem_copy_eq.1 [5, 3] [5, 3] rfl,
   union_idem_copy_eq.2 [1, 2] [3, 4] (by decide)⟩

/-- C9: insertion is deterministic within one run: building two sketches
of the same precision from the same element sequence with the same hash
function yields sketches whose equality comparison returns true. -/
theorem add_deterministic (α : Type) (hashFn : α → Nat) (p : Nat)
    (xs : List α) :
    hllEq (buildSketch hashFn p xs) (buildSketch hashFn p xs) = true :=
  hllEq_self _

/-! ## The count formula (claim C5) -/

theorem sum_range_getD (regs : List Nat) (f : Nat → ℝ) :
    (Finset.range regs.length).sum (fun i => f (regs.getD i 0)) =
      (regs.map f).sum := by
  induction regs with
  | nil => simp
  | cons r rs ih =>
    rw [List.length_cons, Finset.sum_range_succ']
    simp only [List.getD_cons_succ, List.getD_cons_zero, List.map_cons,
      List.sum_cons]
    rw [ih]; ring

theorem zero_count_eq_count (regs : List Nat) :
    zero_count regs = regs.count 0 := by
  induction regs with
  | nil => rfl
  | cons r rs ih =>
    by_cases h : r = 0
    · subst h
      simp [zero_count, List.count_cons] at ih ⊢
      omega
    · simp [zero_count, List.count_cons, h, List.filter_cons] at ih ⊢
      simpa [h] using ih

/-- C5: hllCount, translated from the source, equals the count of the
claim: raw estimate E = alpha times m squared over Z with Z the sum of
2 to the negated register, followed by the three-branch correction with
breakpoints 2.5 m and one thirtieth of 2 to the 32. -/
theorem count_matches_spec (p : Nat) (regs : List Nat)
    (hm : regs.length = 2 ^ p) : hllCount p regs = specCount p regs := by
  have hzero : zero_count regs = regs.count 0 := zero_count_eq_count regs
  have hcast : ((2 ^ 32 : Nat) : ℝ) = 2 ^ 32 := by push_cast; ring
  have hm2 : ((2 ^ p * 2 ^ p : Nat) : ℝ) = ((2 ^ p : Nat) : ℝ) ^ 2 := by
    push_cast; ring
  have hsum : ((Finset.range (2 ^ p)).sum fun i =>
      (2 : ℝ) ^ (-(regs.getD i 0 : ℤ))) =
      (regs.map fun r : Nat => (2 : ℝ) ^ (-(r : ℤ))).sum := by
    rw [← hm]
    exact sum_range_getD regs (fun r : Nat => (2 : ℝ) ^ (-(r : ℤ)))
  have hE : hllEstimate p regs =
      compute_alpha p * ((2 ^ p : Nat) : ℝ) ^ 2 /
        (regs.map fun r : Nat => (2 : ℝ) ^ (-(r : ℤ))).sum := by
    unfold hllEstimate
    rw [hsum, hm2]
  have h25 : (2.5 : ℝ) = 5 / 2 := by norm_num
  unfold hllCount specCount
  simp only [hE, hzero, hcast, h25, ne_eq, Nat.pos_iff_ne_zero]

/-- Witness for C5 at precision 0 with the one fresh register. -/
theorem count_matches_spec_witness :
    ([0] : List Nat).length = 2 ^ 0 ∧ hllCount 0 [0] = specCount 0 [0] :=
  ⟨by decide, count_matches_spec 0 [0] (by decide)⟩

/-! ## The round counter (claim C10) -/

/-- C10: the round counter update is u8 arithmetic: bump never exceeds
255, bump of 255 wraps to 0 rather than counting on monotonically, and
any round count the loop returns from an initial counter at most 255 is
itself at most 255. -/
theorem round_counter_wraps :
    (∀ t, bump t ≤ 255) ∧ bump 255 = 0 ∧
    (∀ (V : Type) [Fintype V] [DecidableEq V] (nbr : V → List V)
      (fuel : Nat) (prev : V → List Nat) (t : Nat), t ≤ 255 →
      (runLoop nbr fuel prev t).elim True fun r => r.1 ≤ 255) := by
  refine ⟨fun t => ?_, by decide, ?_⟩
  · unfold bump; omega
  · intro V _ _ nbr fuel
    induction fuel with
    | zero => intro prev t ht; simp [runLoop]
    | succ f ih =>
      intro prev t ht
      rw [runLoop]
      split
      · simpa using ht
      · exact ih _ (bump t) (by unfold bump; omega)

/-- Witness for C10: the loop part applied to a one-node graph whose
single counter is already stable. -/
theorem round_counter_wraps_witness :
    (0 : Nat) ≤ 255 ∧
    (runLoop (fun _ : Fin 1 => [(0 : Fin 1)]) 1 (fun _ => [5]) 0).elim True
      (fun r => r.1 ≤ 255) :=
  ⟨by decide,
   round_counter_wraps.2.2 (Fin 1) (fun _ => [0]) 1 (fun _ => [5]) 0
     (by decide)⟩

/-! ## The round step (claim C2) -/

theorem foldl_hllUnion_length {V : Type} (l : List V) (f : V → List Nat)
    (init : List Nat) :
    (l.foldl (fun acc m => hllUnion acc (f m)) init).length =
      init.length := by
  induction l generalizing init with
  | nil => rfl
  | cons c cs ih =>
    simp only [List.foldl_cons]
    rw [ih, hllUnion_length]

theorem foldl_hllUnion_getD {V : Type} (l : List V) (f : V → List Nat)
    (init : List Nat) (L i : Nat) (hinit : init.length = L)
    (hf : ∀ m ∈ l, (f m).length = L) :
    (l.foldl (fun acc m => hllUnion acc (f m)) init).getD i 0 =
      (l.map fun m => (f m).getD i 0).foldl max (init.getD i 0) := by
  induction l generalizing init with
  | nil => rfl
  | cons c cs ih =>
    simp only [List.foldl_cons, List.map_cons]
    rw [ih (hllUnion init (f c)) (by rw [hllUnion_length]; exact hinit)
      (fun m hm => hf m (by simp [hm]))]
    rw [hllUnion_getD_eq init (f c) (by rw [hinit, hf c (by simp)])]

theorem foldl_max_eq (l : List Nat) (b : Nat) :
    l.foldl max b = max b (l.foldr max 0) := by
  induction l generalizing b with
  | nil => simp
  | cons x xs ih =>
    simp only [List.foldl_cons, List.foldr_cons]
    rw [ih, Nat.max_assoc]

/-- C2: in a round whose current table is register-identical to the
previous table (the loop invariant established by the initial clone and by
set_values), the new counter of every node n equals, register for
register, the pointwise maximum of the previous counter of n and the
previous counters of all its neighbours; the right-hand side mentions only
the previous table, and the round body returns the new current table while
the previous table is untouched. -/
theorem round_step_reads_previous {V : Type} (nbr : V → List V)
    (prev cur : V → List Nat) (L : Nat)
    (hlen : ∀ n, (prev n).length = L)
    (hcp : ∀ n, cur n = prev n) (n : V) :
    (roundStep nbr prev cur n).length = L ∧
    ∀ i, (roundStep nbr prev cur n).getD i 0 =
      max ((prev n).getD i 0)
        (((nbr n).map fun m => (prev m).getD i 0).foldr max 0) := by
  unfold roundStep
  rw [hcp n]
  refine ⟨?_, fun i => ?_⟩
  · rw [foldl_hllUnion_length]; exact hlen n
  · rw [foldl_hllUnion_getD (nbr n) prev (prev n) L i (hlen n)
      (fun m _ => hlen m), foldl_max_eq]

/-- Witness for C2 on the two-node path with concrete counters. -/
theorem round_step_reads_previous_witness :
    ((∀ n, (wPrev n).length = 2) ∧ (∀ n, wPrev n = wPrev n)) ∧
    (roundStep wNbr wPrev wPrev 0).length = 2 ∧
    (∀ i, (roundStep wNbr wPrev wPrev 0).getD i 0 =
      max ((wPrev 0).getD i 0)
        (((wNbr 0).map fun m => (wPrev m).getD i 0).foldr max 0)) :=
  ⟨⟨by decide, fun n => rfl⟩,
   round_step_reads_previous wNbr wPrev wPrev 2 (by decide)
     (fun n => rfl) 0⟩

/-! ## The adjacency index (claim C8) -/

theorem addNeighbor_nil {V : Type} [DecidableEq V] (src dst : V) :
    addNeighbor ([] : List (V × List V)) src dst = [(src, [dst])] := rfl

theorem addNeighbor_cons_eq {V : Type} [DecidableEq V] (k : V)
    (vs : List V) (rest : List (V × List V)) (dst : V) :
    addNeighbor ((k, vs) :: rest) k dst = (k, vs ++ [dst]) :: rest := by
  unfold addNeighbor
  rw [if_pos rfl]

theorem addNeighbor_cons_ne {V : Type} [DecidableEq V] (k src : V)
    (vs : List V) (rest : List (V × List V)) (dst : V) (h : ¬k = src) :
    addNeighbor ((k, vs) :: rest) src dst =
      (k, vs) :: addNeighbor rest src dst := by
  conv_lhs => rw [addNeighbor]
  rw [if_neg h]

theorem mem_keys_addNeighbor_self {V : Type} [DecidableEq V]
    (g : List (V × List V)) (src dst : V) :
    src ∈ keys (addNeighbor g src dst) := by
  induction g with
  | nil => simp [addNeighbor_nil, keys]
  | cons kv rest ih =>
    obtain ⟨k, vs⟩ := kv
    by_cases h : k = src
    · subst h
      simp [addNeighbor_cons_eq, keys]
    · rw [addNeighbor_cons_ne k src vs rest dst h]
      simp only [keys, List.map_cons, List.mem_cons]
      right
      exact ih

theorem mem_keys_addNeighbor_of_mem {V : Type} [DecidableEq V]
    (g : List (V × List V)) (src dst x : V) :
    x ∈ keys g → x ∈ keys (addNeighbor g src dst) := by
  induction g with
  | nil => intro hx; simp [keys] at hx
  | cons kv rest ih =>
    obtain ⟨k, vs⟩ := kv
    intro hx
    simp only [keys, List.map_cons, List.mem_cons] at hx
    by_cases h : k = src
    · subst h
      rw [addNeighbor_cons_eq]
      simp only [keys, List.map_cons, List.mem_cons]
      exact hx
    · rw [addNeighbor_cons_ne k src vs rest dst h]
      simp only [keys, List.map_cons, List.mem_cons]
      rcases hx with hx | hx
      · exact Or.inl hx
      · exact Or.inr (ih hx)

theorem addNeighbor_values {V : Type} [DecidableEq V]
    (g : List (V × List V)) (src dst : V) (kv : V × List V) (n : V)
    (hn : n ∈ kv.2) :
    kv ∈ addNeighbor g src dst → (∃ kv0 ∈ g, n ∈ kv0.2) ∨ n = dst := by
  induction g with
  | nil =>
    intro hkv
    rw [addNeighbor_nil] at hkv
    simp only [List.mem_singleton] at hkv
    subst hkv
    simp only [List.mem_singleton] at hn
    exact Or.inr hn
  | cons hd rest ih =>
    obtain ⟨k, vs⟩ := hd
    intro hkv
    by_cases h : k = src
    · subst h
      rw [addNeighbor_cons_eq] at hkv
      rcases List.mem_cons.mp hkv with hkv2 | hkv2
      · subst hkv2
        simp only [List.mem_append, List.mem_singleton] at hn
        rcases hn with hn | hn
        · exact Or.inl ⟨(k, vs), by simp, hn⟩
        · exact Or.inr hn
      · exact Or.inl ⟨kv, by simp [hkv2], hn⟩
    · rw [addNeighbor_cons_ne k src vs rest dst h] at hkv
      rcases List.mem_cons.mp hkv with hkv2 | hkv2
      · subst hkv2
        exact Or.inl ⟨(k, vs), by simp, hn⟩
      · rcases ih hkv2 with ⟨kv0, hkv0, hn0⟩ | hd2
        · exact Or.inl ⟨kv0, by simp [hkv0], hn0⟩
        · exact Or.inr hd2

/-- The closure invariant of the adjacency map: every node appearing in a
neighbour list is itself a key. -/
def NbrClosed {V : Type} (g : List (V × List V)) : Prop :=
  ∀ kv ∈ g, ∀ n ∈ kv.2, n ∈ keys g

theorem nbrClosed_addEdge {V : Type} [DecidableEq V]
    (g : List (V × List V)) (a b : V) (hg : NbrClosed g) :
    NbrClosed (addNeighbor (addNeighbor g a b) b a) := by
  intro kv hkv n hn
  rcases addNeighbor_values _ b a kv n hn hkv with ⟨kv1, hkv1, hn1⟩ | h
  · rcases addNeighbor_values g a b kv1 n hn1 hkv1 with ⟨kv0, hkv0, hn0⟩ | h2
    · exact mem_keys_addNeighbor_of_mem _ b a _
        (mem_keys_addNeighbor_of_mem _ a b _ (hg kv0 hkv0 n hn0))
    · rw [h2]
      exact mem_keys_addNeighbor_self _ b a
  · rw [h]
    exact mem_keys_addNeighbor_of_mem _ b a _
      (mem_keys_addNeighbor_self g a b)

theorem graphNew_fold_invariant {V : Type} [DecidableEq V]
    (edges : List (V × V)) :
    ∀ acc : List (V × List V), NbrClosed acc →
      NbrClosed (edges.foldl
        (fun acc e => addNeighbor (addNeighbor acc e.1 e.2) e.2 e.1) acc) ∧
      (∀ x ∈ keys acc, x ∈ keys (edges.foldl
        (fun acc e => addNeighbor (addNeighbor acc e.1 e.2) e.2 e.1) acc)) ∧
      (∀ e ∈ edges,
        e.1 ∈ keys (edges.foldl
          (fun acc e => addNeighbor (addNeighbor acc e.1 e.2) e.2 e.1) acc) ∧
        e.2 ∈ keys (edges.foldl
          (fun acc e => addNeighbor (addNeighbor acc e.1 e.2) e.2 e.1) acc)) := by
  induction edges with
  | nil =>
    intro acc hacc
    exact ⟨hacc, fun x hx => hx, by simp⟩
  | cons e es ih =>
    intro acc hacc
    simp only [List.foldl_cons]
    obtain ⟨h1, h2, h3⟩ :=
      ih (addNeighbor (addNeighbor acc e.1 e.2) e.2 e.1)
        (nbrClosed_addEdge acc e.1 e.2 hacc)
    refine ⟨h1, ?_, ?_⟩
    · intro x hx
      exact h2 x (mem_keys_addNeighbor_of_mem _ e.2 e.1 x
        (mem_keys_addNeighbor_of_mem _ e.1 e.2 x hx))
    · intro e2 he2
      rcases List.mem_cons.mp he2 with he2 | he2
      · subst he2
        constructor
        · exact h2 e2.1 (mem_keys_addNeighbor_of_mem _ e2.2 e2.1 _
            (mem_keys_addNeighbor_self acc e2.1 e2.2))
        · exact h2 e2.2 (mem_keys_addNeighbor_self _ e2.2 e2.1)
      · exact h3 e2 he2

theorem lookupTable_initCounters {V : Type} [DecidableEq V]
    (hashFn : V → Nat) (b : Nat) (nodes : List V) (n : V)
    (hn : n ∈ nodes) :
    lookupTable (initCounters hashFn b nodes) n ≠ none := by
  induction nodes with
  | nil => simp at hn
  | cons x xs ih =>
    simp only [initCounters, List.map_cons, lookupTable]
    by_cases h : x = n
    · simp [h]
    · rw [if_neg h]
      rcases List.mem_cons.mp hn with hn2 | hn2


      · exact absurd hn2.symm h
      · exact ih hn2

/-- C8: the adjacency index built by Graph::new contains both endpoints of
every edge as keys, every identifier in any neighbour list is itself a
key, and the lookups of the node counter and of every neighbour counter in
the tables built by init_counters over the key list succeed. -/
theorem graph_lookups_total {V : Type} [DecidableEq V]
    (edges : List (V × V)) (hashFn : V → Nat) (b : Nat) :
    (∀ e ∈ edges, e.1 ∈ keys (graphNew edges) ∧
      e.2 ∈ keys (graphNew edges)) ∧
    (∀ kv ∈ graphNew edges, ∀ nb ∈ kv.2,
      nb ∈ keys (graphNew edges) ∧
      lookupTable (initCounters hashFn b (keys (graphNew edges))) nb ≠
        none) ∧
    (∀ kv ∈ graphNew edges,
      lookupTable (initCounters hashFn b (keys (graphNew edges))) kv.1 ≠
        none) := by
  obtain ⟨h1, _, h3⟩ := graphNew_fold_invariant edges ([] : List (V × List V))
    (by intro kv hkv; simp at hkv)
  refine ⟨h3, ?_, ?_⟩
  · intro kv hkv nb hnb
    have hk : nb ∈ keys (graphNew edges) := h1 kv hkv nb hnb
    exact ⟨hk, lookupTable_initCounters hashFn b _ nb hk⟩
  · intro kv hkv
    apply lookupTable_initCounters
    exact List.mem_map_of_mem Prod.fst hkv

/-- Witness for C8 on the one-edge graph between nodes 0 and 1. -/
theorem graph_lookups_total_witness :
    (((0 : Nat), [(1 : Nat)]) ∈ graphNew [((0 : Nat), (1 : Nat))] ∧
      (1 : Nat) ∈ [(1 : Nat)]) ∧
    ((1 : Nat) ∈ keys (graphNew [((0 : Nat), (1 : Nat))]) ∧
      lookupTable
        (initCounters (fun n => n) 2 (keys (graphNew [((0 : Nat), (1 : Nat))])))
        1 ≠ none) :=
  ⟨⟨by decide, by decide⟩,
   (graph_lookups_total [((0 : Nat), (1 : Nat))] (fun n => n) 2).2.1
     (0, [1]) (by decide) 1 (by decide)⟩

/-! ## Termination of the propagation loop (claim C3) -/

theorem list_ext_getD (a b : List Nat) (h : a.length = b.length)
    (hg : ∀ i, a.getD i 0 = b.getD i 0) : a = b := by
  induction a generalizing b with
  | nil =>
    cases b with
    | nil => rfl
    | cons y ys => simp at h
  | cons x xs ih =>
    cases b with
    | nil => simp at h
    | cons y ys =>
      have h0 := hg 0
      simp only [List.getD_cons_zero] at h0
      subst h0
      have hlen : xs.length = ys.length := by
        simpa using h
      have hrest : xs = ys := ih ys hlen (fun i => by
        have := hg (i + 1)
        simpa using this)
      rw [hrest]

theorem iterRound_length {V : Type} (nbr : V → List V)
    (seed : V → List Nat) (L : Nat) (hlen : ∀ n, (seed n).length = L) :
    ∀ k n, (iterRound nbr seed k n).length = L := by
  intro k
  induction k with
  | zero => exact hlen
  | succ k ih =>
    intro n
    show (roundStep nbr (iterRound nbr seed k) (iterRound nbr seed k)
      n).length = L
    unfold roundStep
    rw [foldl_hllUnion_length]
    exact ih n

theorem subset_foldl_union {V : Type} [DecidableEq V] (l : List V)
    (g : V → Finset V) :
    ∀ s : Finset V, s ⊆ l.foldl (fun t c => t ∪ g c) s := by
  induction l with
  | nil => intro s; exact Finset.Subset.refl s
  | cons c cs ih =>
    intro s
    simp only [List.foldl_cons]
    exact Finset.Subset.trans Finset.subset_union_left (ih (s ∪ g c))

theorem ball_subset_succ {V : Type} [DecidableEq V] (nbr : V → List V)
    (k : Nat) (a : V) : ball nbr k a ⊆ ball nbr (k + 1) a := by
  show ball nbr k a ⊆
    (nbr a).foldl (fun s c => s ∪ ball nbr k c) (ball nbr k a)
  exact subset_foldl_union (nbr a) (ball nbr k) (ball nbr k a)

theorem sup_foldl_union {V : Type} [DecidableEq V] (l : List V)
    (g : V → Finset V) (f : V → Nat) :
    ∀ s : Finset V,
      (l.foldl (fun t c => t ∪ g c) s).sup f =
        (l.map fun c => (g c).sup f).foldl max (s.sup f) := by
  induction l with
  | nil => intro s; rfl
  | cons c cs ih =>
    intro s
    simp only [List.foldl_cons, List.map_cons]
    rw [ih (s ∪ g c), Finset.sup_union]

theorem iterRound_getD {V : Type} [DecidableEq V] (nbr : V → List V)
    (seed : V → List Nat) (L : Nat) (hlen : ∀ n, (seed n).length = L) :
    ∀ (k : Nat) (n : V) (i : Nat),
      (iterRound nbr seed k n).getD i 0 =
        (ball nbr k n).sup fun m => (seed m).getD i 0 := by
  intro k
  induction k with
  | zero =>
    intro n i
    show (seed n).getD i 0 = Finset.sup {n} fun m => (seed m).getD i 0
    rw [Finset.sup_singleton]
  | succ k ih =>
    intro n i
    show (roundStep nbr (iterRound nbr seed k) (iterRound nbr seed k)
        n).getD i 0 = _
    unfold roundStep
    rw [foldl_hllUnion_getD (nbr n) (iterRound nbr seed k)
      (iterRound nbr seed k n) L i
      (iterRound_length nbr seed L hlen k n)
      (fun m _ => iterRound_length nbr seed L hlen k m)]
    show ((nbr n).map fun m => (iterRound nbr seed k m).getD i 0).foldl
      max ((iterRound nbr seed k n).getD i 0) =
      (ball nbr (k + 1) n).sup fun m => (seed m).getD i 0
    have hball : ball nbr (k + 1) n =
        (nbr n).foldl (fun s c => s ∪ ball nbr k c) (ball nbr k n) := rfl
    rw [hball, sup_foldl_union (nbr n) (ball nbr k)
      (fun m => (seed m).getD i 0) (ball nbr k n)]
    simp only [ih]

theorem iterRound_fixed {V : Type} [Fintype V] [DecidableEq V]
    (nbr : V → List V) (seed : V → List Nat) (L D : Nat)
    (hlen : ∀ n, (seed n).length = L)
    (hD : ∀ a b : V, b ∈ ball nbr D a) :
    iterRound nbr seed D = iterRound nbr seed (D + 1) := by
  funext n
  have h1 : ball nbr D n = Finset.univ :=
    Finset.eq_univ_iff_forall.mpr fun b => hD n b
  have h2 : ball nbr (D + 1) n = Finset.univ :=
    Finset.eq_univ_iff_forall.mpr fun b =>
      ball_subset_succ nbr D n (h1 ▸ Finset.mem_univ b)
  apply list_ext_getD
  · rw [iterRound_length nbr seed L hlen D n,
      iterRound_length nbr seed L hlen (D + 1) n]
  · intro i
    rw [iterRound_getD nbr seed L hlen D n i,
      iterRound_getD nbr seed L hlen (D + 1) n i, h1, h2]

theorem runLoop_of_iter_fixed {V : Type} [Fintype V] [DecidableEq V]
    (nbr : V → List V) (seed : V → List Nat) (L : Nat)
    (hlen : ∀ n, (seed n).length = L) :
    ∀ (j k t : Nat),
      iterRound nbr seed (k + j) = iterRound nbr seed (k + j + 1) →
      ∃ t2 fin, runLoop nbr (j + 1) (iterRound nbr seed k) t =
          some (t2, fin) ∧
        t2 ≤ t + j ∧ ∀ n, roundStep nbr fin fin n = fin n := by
  intro j
  induction j with
  | zero =>
    intro k t hfix
    rw [Nat.add_zero] at hfix
    have hcond : ∀ n,
        hllEq (roundStep nbr (iterRound nbr seed k)
          (iterRound nbr seed k) n) (iterRound nbr seed k n) = true := by
      intro n
      have : roundStep nbr (iterRound nbr seed k) (iterRound nbr seed k)
          n = iterRound nbr seed k n := by
        show iterRound nbr seed (k + 1) n = iterRound nbr seed k n
        rw [← hfix]
      rw [this]
      exact hllEq_self _
    refine ⟨t, roundStep nbr (iterRound nbr seed k) (iterRound nbr seed k),
      ?_, Nat.le_refl t, ?_⟩
    · show runLoop nbr 1 (iterRound nbr seed k) t = _
      rw [runLoop]
      rw [if_pos hcond]
    · intro n
      show roundStep nbr (iterRound nbr seed (k + 1))
        (iterRound nbr seed (k + 1)) n = iterRound nbr seed (k + 1) n
      rw [← hfix]
      show iterRound nbr seed (k + 1) n = iterRound nbr seed k n
      rw [← hfix]
  | succ j ih =>
    intro k t hfix
    by_cases hc : ∀ n,
        hllEq (roundStep nbr (iterRound nbr seed k)
          (iterRound nbr seed k) n) (iterRound nbr seed k n) = true
    · have heq : iterRound nbr seed (k + 1) = iterRound nbr seed k := by
        funext n
        have hlen1 : (iterRound nbr seed (k + 1) n).length =
            (iterRound nbr seed k n).length := by
          rw [iterRound_length nbr seed L hlen (k + 1) n,
            iterRound_length nbr seed L hlen k n]
        exact (hllEq_iff_eq _ _ hlen1).mp (hc n)
      refine ⟨t, roundStep nbr (iterRound nbr seed k)
        (iterRound nbr seed k), ?_, Nat.le_add_right t (j + 1), ?_⟩
      · rw [runLoop]
        rw [if_pos hc]
      · intro n
        show roundStep nbr (iterRound nbr seed (k + 1))
          (iterRound nbr seed (k + 1)) n = iterRound nbr seed (k + 1) n
        rw [heq]
        show iterRound nbr seed (k + 1) n = iterRound nbr seed k n
        rw [heq]
    · have hstep : runLoop nbr (j + 1 + 1) (iterRound nbr seed k) t =
          runLoop nbr (j + 1) (iterRound nbr seed (k + 1)) (bump t) := by
        rw [runLoop]
        rw [if_neg hc]
        rfl
      have hidx : k + 1 + j = k + (j + 1) := by omega
      have hfix2 : iterRound nbr seed (k + 1 + j) =
          iterRound nbr seed (k + 1 + j + 1) := by
        rw [hidx]
        exact hfix
      obtain ⟨t2, fin, heq, hle, hfp⟩ := ih (k + 1) (bump t) hfix2
      refine ⟨t2, fin, ?_, ?_, hfp⟩
      · rw [hstep]
        exact heq
      · have hb : bump t ≤ t + 1 := Nat.mod_le _ _
        omega

/-- C3: on a finite graph whose every node lies within D hops of every
node (D ranges over all upper bounds of the eccentricities, in particular
the diameter of a connected graph), the propagation loop terminates: run
with fuel D + 1 it returns, the returned round counter is at most D, and
the returned table is a register-level fixed point of the round body. -/
theorem propagation_fixed_point_within_diameter {V : Type} [Fintype V]
    [DecidableEq V] (nbr : V → List V) (seed : V → List Nat) (L D : Nat)
    (hlen : ∀ n, (seed n).length = L)
    (hD : ∀ a b : V, b ∈ ball nbr D a) :
    ∃ t fin, runLoop nbr (D + 1) seed 0 = some (t, fin) ∧ t ≤ D ∧
      ∀ n, roundStep nbr fin fin n = fin n := by
  have hfix : iterRound nbr seed (0 + D) = iterRound nbr seed (0 + D + 1) := by
    rw [Nat.zero_add]
    exact iterRound_fixed nbr seed L D hlen hD
  obtain ⟨t2, fin, heq, hle, hfp⟩ :=
    runLoop_of_iter_fixed nbr seed L hlen D 0 0 hfix
  exact ⟨t2, fin, heq, by omega, hfp⟩

/-- Witness for C3 on the two-node path graph, whose diameter is 1, with
the concrete seed table. -/
theorem propagation_fixed_point_witness :
    ((∀ n, (wPrev n).length = 2) ∧ (∀ a b : Fin 2, b ∈ ball wNbr 1 a)) ∧
    (∃ t fin, runLoop wNbr (1 + 1) wPrev 0 = some (t, fin) ∧ t ≤ 1 ∧
      ∀ n, roundStep wNbr fin fin n = fin n) :=
  ⟨⟨by decide, by decide⟩,
   propagation_fixed_point_within_diameter wNbr wPrev 2 1 (by decide)
     (by decide)⟩

end HyperAnf
